import Mathlib

/-!
Verification of the candidate-extraction core of `tailwindcss` (oxide),
shallowly embedded from `src/oxide/crates/core/src/lib.rs`.

Rust byte buffers (`Vec<u8>`, `&[u8]`) are modelled as `List Nat`; Rust
`String` values are modelled by their UTF-8 byte sequences (so
`String::into_bytes` is the identity and `String::from_utf8_unchecked` is the
identity).  Rust panics (`unwrap`, `unimplemented!`) are modelled with
`Except PanicErr`.  The file system is an explicit parameter
`fs : String → Except IoError Bytes`; `std::env::var("DEBUG")` is an explicit
parameter `dbg : Option String`.
-/

/-- A byte string: each entry is one byte (conceptually `< 256`). -/
abbrev Bytes := List Nat

/-- `std::io::Error` as produced by `std::fs::read`: it carries an error kind
but no file path. -/
structure IoError where
  kind : String
deriving DecidableEq

/-- The ways the Rust code can panic: `unimplemented!("Unknown 'IO' strategy")`,
`unimplemented!("Unknown 'Parsing' strategy")`, and the `.unwrap()` on the
result of `std::fs::read`, whose payload is the `io::Error` (no path). -/
inductive PanicErr where
  | unknownIoStrategy : PanicErr
  | unknownParsingStrategy : PanicErr
  | readPanic : IoError → PanicErr
deriving DecidableEq

/-- Decidable equality of `Except` results, for evaluating the model on
concrete inputs. -/
instance exceptDecEq {ε α : Type} [DecidableEq ε] [DecidableEq α] :
    DecidableEq (Except ε α)
  | Except.ok x, Except.ok y =>
      if h : x = y then Decidable.isTrue (congrArg Except.ok h)
      else Decidable.isFalse (fun hc => h (Except.ok.inj hc))
  | Except.ok _, Except.error _ => Decidable.isFalse (fun hc => Except.noConfusion hc)
  | Except.error _, Except.ok _ => Decidable.isFalse (fun hc => Except.noConfusion hc)
  | Except.error x, Except.error y =>
      if h : x = y then Decidable.isTrue (congrArg Except.error h)
      else Decidable.isFalse (fun hc => h (Except.error.inj hc))

/-- `pub struct ChangedContent { file: Option<PathBuf>, content: Option<String>,
extension: String }`.  The inline `content` is modelled by its UTF-8 bytes. -/
structure ChangedContent where
  file : Option String
  content : Option Bytes
  extension : String

/-- `pub enum IO { Sequential = 0b0001, Parallel = 0b0010 }`. -/
inductive Io where
  | sequential : Io
  | parallel : Io
deriving DecidableEq

/-- `pub enum Parsing { Sequential = 0b0100, Parallel = 0b1000 }`. -/
inductive Parsing where
  | sequential : Parsing
  | parallel : Parsing
deriving DecidableEq

/-- `impl From<u8> for IO`: `match item & 0b0011 { 0b0001 => Sequential,
0b0010 => Parallel, _ => unimplemented!(..) }`.  `none` models the panic. -/
def ioFromU8 (item : Nat) : Option Io :=
  match item &&& 3 with
  | 1 => some Io.sequential
  | 2 => some Io.parallel
  | _ => none

/-- `impl From<u8> for Parsing`: `match item & 0b1100 { 0b0100 => Sequential,
0b1000 => Parallel, _ => unimplemented!(..) }`.  `none` models the panic. -/
def parsingFromU8 (item : Nat) : Option Parsing :=
  match item &&& 12 with
  | 4 => some Parsing.sequential
  | 8 => some Parsing.parallel
  | _ => none

/-- `fn init_tracing()`: initializes a tracing subscriber iff the `DEBUG`
environment variable is `"*"`, `"1"`, `"true"`, or contains `"tailwind"`.
We return the decision so the model keeps the observable effect. -/
def listContainsSub : List Char → List Char → Bool
  | hay, needle =>
    match hay with
    | [] => needle.isEmpty
    | _ :: t => needle.isPrefixOf hay || listContainsSub t needle

def init_tracing (dbg : Option String) : Bool :=
  match dbg with
  | some v =>
      v == "*" || v == "1" || v == "true" || listContainsSub v.data "tailwind".data
  | none => false

/-- One arm of the `map` in `read_all_files` / `read_all_files_sync`:
`match (c.file, c.content) { (Some(file), None) => std::fs::read(file).unwrap(),
(None, Some(content)) => content.into_bytes(), _ => Default::default() }`. -/
def resolveContent (fs : String → Except IoError Bytes) (c : ChangedContent) :
    Except PanicErr Bytes :=
  match c.file, c.content with
  | some file, none =>
      match fs file with
      | Except.ok bytes => Except.ok bytes
      | Except.error e => Except.error (PanicErr.readPanic e)
  | none, some content => Except.ok content
  | _, _ => Except.ok []

/-- `fn read_all_files`: rayon `into_par_iter().map(..).collect()`, which
preserves input order; a panic in any task aborts the call. -/
def read_all_files (fs : String → Except IoError Bytes)
    (changed_content : List ChangedContent) : Except PanicErr (List Bytes) :=
  changed_content.mapM (resolveContent fs)

/-- `fn read_all_files_sync`: sequential `into_iter().map(..).collect()`. -/
def read_all_files_sync (fs : String → Except IoError Bytes)
    (changed_content : List ChangedContent) : Except PanicErr (List Bytes) :=
  changed_content.mapM (resolveContent fs)

/-! ## The candidate scanner

`Extractor::unique` lives in the `parser` module, which is not part of the
sources at hand; it is modelled here from the specification of the candidate
scanner (one left-to-right pass; bracket/quote nesting; escaping backslash;
colon-chained variants; termination only at ASCII bytes; a span is emitted
only if non-empty and structurally complete). -/

/-- ASCII identifier byte: `a`-`z`, `A`-`Z`, `0`-`9`, `_`. -/
def isIdentByte (b : Nat) : Bool :=
  decide ((0x61 ≤ b ∧ b ≤ 0x7a) ∨ (0x41 ≤ b ∧ b ≤ 0x5a) ∨
    (0x30 ≤ b ∧ b ≤ 0x39) ∨ b = 0x5f)

/-- Legal first byte of a candidate: identifier byte, `-`, `!`, or `[`. -/
def isStartByte (b : Nat) : Bool :=
  isIdentByte b || decide (b = 0x2d ∨ b = 0x21 ∨ b = 0x5b)

/-- Modelled from the spec: the scanner state while a candidate is in
progress — offset where it opened, `[...]` nesting depth, the quote byte we
are inside (within a bracket segment), a pending escaping backslash, the
number of unescaped `!` seen, and whether the last relevant byte was `:`. -/
structure ScanState where
  start : Nat
  depth : Nat
  quote : Option Nat
  escaped : Bool
  bangs : Nat
  lastColon : Bool
deriving DecidableEq

/-- Result of feeding one byte to an in-progress candidate. -/
inductive ScanStep where
  | cont : ScanState → ScanStep
  | stop : ScanStep
deriving DecidableEq

/-- Modelled from the spec: state opened at the first legal start byte. -/
def openState (pos b : Nat) : ScanState :=
  { start := pos
    depth := if b = 0x5b then 1 else 0
    quote := none
    escaped := false
    bangs := if b = 0x21 then 1 else 0
    lastColon := false }

/-- Modelled from the spec: the per-byte transition of the scanner.  An
escaped byte is literal; inside `[...]` every byte is data except quotes and
brackets; at depth 0 identifier bytes, `-`, `.`, `/` and all non-ASCII bytes
(`≥ 0x80`) continue, `:` continues and marks a variant boundary, `[` opens a
bracket segment, a second unescaped `!` terminates, and every other ASCII
byte (whitespace, quotes, punctuation) terminates the candidate. -/
def scanStep (st : ScanState) (b : Nat) : ScanStep :=
  if st.escaped then ScanStep.cont { st with escaped := false, lastColon := false }
  else if b = 0x5c then ScanStep.cont { st with escaped := true, lastColon := false }
  else if 0 < st.depth then
    match st.quote with
    | some q => if b = q then ScanStep.cont { st with quote := none } else ScanStep.cont st
    | none =>
        if b = 0x27 ∨ b = 0x22 then ScanStep.cont { st with quote := some b }
        else if b = 0x5b then ScanStep.cont { st with depth := st.depth + 1 }
        else if b = 0x5d then ScanStep.cont { st with depth := st.depth - 1, lastColon := false }
        else ScanStep.cont st
  else
    if isIdentByte b ∨ b = 0x2d ∨ b = 0x2e ∨ b = 0x2f ∨ 0x80 ≤ b then
      ScanStep.cont { st with lastColon := false }
    else if b = 0x3a then ScanStep.cont { st with lastColon := true }
    else if b = 0x5b then ScanStep.cont { st with depth := 1, lastColon := false }
    else if b = 0x21 then
      if st.bangs = 0 then ScanStep.cont { st with bangs := 1, lastColon := false }
      else ScanStep.stop
    else ScanStep.stop

/-- Modelled from the spec: a terminated span is emitted only if structurally
complete — balanced brackets, no open quote, no pending escape, and no
dangling trailing colon. -/
def emitOk (st : ScanState) : Bool :=
  decide (st.depth = 0) && st.quote.isNone && !st.escaped && !st.lastColon

/-- Modelled from the spec: the single left-to-right pass.  `pos` is the
offset of the head of the remaining input inside the whole buffer; the result
is the list of emitted byte ranges `(start, stop)`, half-open. -/
def scanFrom : List Nat → Nat → Option ScanState → List (Nat × Nat)
  | [], _, none => []
  | [], pos, some st => if emitOk st then [(st.start, pos)] else []
  | b :: rest, pos, none =>
      if isStartByte b then scanFrom rest (pos + 1) (some (openState pos b))
      else scanFrom rest (pos + 1) none
  | b :: rest, pos, some st =>
      match scanStep st b with
      | ScanStep.cont st2 => scanFrom rest (pos + 1) (some st2)
      | ScanStep.stop =>
          (if emitOk st then [(st.start, pos)] else []) ++ scanFrom rest (pos + 1) none

/-- The byte ranges the scanner reports for a whole buffer. -/
def scanRanges (input : Bytes) : List (Nat × Nat) :=
  scanFrom input 0 none

/-- The sub-buffer of `input` at the half-open byte range `[s, e)`. -/
def byteSlice (input : Bytes) (s e : Nat) : Bytes :=
  (input.drop s).take (e - s)

namespace Extractor

/-- Modelled from the spec: `Extractor::unique(input, Default::default())`
returns the set of distinct candidate slices of one buffer (an
`FxHashSet<&[u8]>`).  A hash set is modelled as a duplicate-free list whose
order carries no meaning; every consumer is proved order-insensitive. -/
def unique (input : Bytes) : List Bytes :=
  ((scanRanges input).map (fun r => byteSlice input r.1 r.2)).dedup

end Extractor

/-! ## The orchestration layer

The final `result.sort()` sorts `Vec<String>` ascending by byte value, i.e.
lexicographically on the byte sequences; this is `(· ≤ ·)` of Mathlib's
lexicographic linear order on `List Nat`. -/

/-- Hash-set insertion: a no-op when the element is already present. -/
def hashInsert (x : Bytes) (acc : List Bytes) : List Bytes :=
  if x ∈ acc then acc else x :: acc

/-- `a.extend(b)` on `FxHashSet`s: insert every element of `b` into `a`. -/
def hashUnion (a b : List Bytes) : List Bytes :=
  b.foldr hashInsert a

/-- `fn parse_all_blobs`: map every blob to its unique-candidate set, merge
with rayon's parallel `reduce(Default::default, extend)` (a tree-shaped union,
modelled as a right fold over set unions; `sorted_union_perm_invariant` below
shows the merge order cannot matter), convert each byte string back to a
string (the identity here) and sort. -/
def parse_all_blobs (blobs : List Bytes) : List Bytes :=
  List.insertionSort (· ≤ ·) ((blobs.map Extractor.unique).foldr hashUnion [])

/-- `fn parse_all_blobs_sync`: same scanning, but a sequential `fold` into one
`FxHashSet` accumulator, then sort. -/
def parse_all_blobs_sync (blobs : List Bytes) : List Bytes :=
  List.insertionSort (· ≤ ·) ((blobs.map Extractor.unique).foldl hashUnion [])

/-- The observable outcome of one top-level call: the returned value (or
panic) plus whether the tracing subscriber was initialized. -/
structure RunResult where
  value : Except PanicErr (List Bytes)
  tracing : Bool

/-- `pub fn parse_candidate_strings_from_files`: `init_tracing()` then
`parse_all_blobs(read_all_files(changed_content))`. -/
def parse_candidate_strings_from_files (dbg : Option String)
    (fs : String → Except IoError Bytes)
    (changed_content : List ChangedContent) : RunResult :=
  { tracing := init_tracing dbg
    value := (read_all_files fs changed_content).map parse_all_blobs }

/-- `pub fn parse_candidate_strings(input, options)`.  The tuple
`(IO::from(options), Parsing::from(options))` is evaluated left to right
before any arm runs, so an invalid IO field panics first, then an invalid
Parsing field, both before any file is read.  The four arms are exactly the
source's (note the source pairs `(Sequential, Parallel)` with the parallel
reader and the sequential parser, and symmetrically for
`(Parallel, Sequential)`). -/
def parse_candidate_strings (dbg : Option String)
    (fs : String → Except IoError Bytes)
    (input : List ChangedContent) (options : Nat) : RunResult :=
  { tracing := init_tracing dbg
    value :=
      match ioFromU8 options with
      | none => Except.error PanicErr.unknownIoStrategy
      | some ioStrat =>
        match parsingFromU8 options with
        | none => Except.error PanicErr.unknownParsingStrategy
        | some parsingStrat =>
          match ioStrat, parsingStrat with
          | Io.sequential, Parsing.sequential =>
              (read_all_files_sync fs input).map parse_all_blobs_sync
          | Io.sequential, Parsing.parallel =>
              (read_all_files fs input).map parse_all_blobs_sync
          | Io.parallel, Parsing.sequential =>
              (read_all_files_sync fs input).map parse_all_blobs
          | Io.parallel, Parsing.parallel =>
              (read_all_files fs input).map parse_all_blobs }

/-! ## UTF-8 validity

Needed to state the byte-safety invariant that justifies the
`String::from_utf8_unchecked` conversion in `parse_all_blobs` and
`parse_all_blobs_sync`. -/

/-- A UTF-8 continuation byte: `0x80 ≤ b ≤ 0xbf`. -/
def isContByte (b : Nat) : Prop :=
  0x80 ≤ b ∧ b ≤ 0xbf

/-- `c` is the UTF-8 encoding of a single Unicode scalar value (RFC 3629,
excluding overlong forms, surrogates, and values above `U+10FFFF`). -/
def IsUtf8Char : List Nat → Prop
  | [b] => b < 0x80
  | [b, c1] => 0xc2 ≤ b ∧ b ≤ 0xdf ∧ isContByte c1
  | [b, c1, c2] => isContByte c1 ∧ isContByte c2 ∧
      ((b = 0xe0 ∧ 0xa0 ≤ c1) ∨ (0xe1 ≤ b ∧ b ≤ 0xec) ∨
        (b = 0xed ∧ c1 ≤ 0x9f) ∨ (0xee ≤ b ∧ b ≤ 0xef))
  | [b, c1, c2, c3] => isContByte c1 ∧ isContByte c2 ∧ isContByte c3 ∧
      ((b = 0xf0 ∧ 0x90 ≤ c1) ∨ (0xf1 ≤ b ∧ b ≤ 0xf3) ∨ (b = 0xf4 ∧ c1 ≤ 0x8f))
  | _ => False

/-- `l` is valid UTF-8: a concatenation of single-character encodings. -/
def Utf8Valid (l : Bytes) : Prop :=
  ∃ cs : List (List Nat), (∀ c ∈ cs, IsUtf8Char c) ∧ l = cs.flatten

/-- A file system on which every read fails with a path-free `NotFound`
error; used to evaluate the model on concrete inputs. -/
def fsAllFail : String → Except IoError Bytes :=
  fun _ => Except.error { kind := "NotFound" }

/-! ## Supporting lemmas: the hash-set model -/

theorem mem_hashInsert {y x : Bytes} {acc : List Bytes} :
    y ∈ hashInsert x acc ↔ y = x ∨ y ∈ acc := by
  unfold hashInsert
  by_cases h : x ∈ acc
  · simp only [if_pos h]
    exact ⟨Or.inr, fun h2 => h2.elim (fun e => e ▸ h) id⟩
  · simp only [if_neg h, List.mem_cons]

theorem nodup_hashInsert {x : Bytes} {acc : List Bytes} (h : acc.Nodup) :
    (hashInsert x acc).Nodup := by
  unfold hashInsert
  by_cases hx : x ∈ acc
  · simpa [if_pos hx] using h
  · exact (if_neg hx) ▸ List.nodup_cons.mpr ⟨hx, h⟩

theorem mem_hashUnion {y : Bytes} {a : List Bytes} : ∀ {b : List Bytes},
    y ∈ hashUnion a b ↔ y ∈ a ∨ y ∈ b
  | [] => by simp [hashUnion]
  | z :: zs => by
    have ih := mem_hashUnion (y := y) (a := a) (b := zs)
    simp only [hashUnion, List.foldr_cons] at ih ⊢
    rw [mem_hashInsert, ih, List.mem_cons]
    tauto

theorem nodup_hashUnion {a : List Bytes} (ha : a.Nodup) : ∀ {b : List Bytes},
    (hashUnion a b).Nodup
  | [] => ha
  | z :: zs => by
    have ih := nodup_hashUnion (a := a) ha (b := zs)
    simp only [hashUnion, List.foldr_cons] at ih ⊢
    exact nodup_hashInsert ih

theorem mem_foldr_hashUnion {x : Bytes} : ∀ {sets : List (List Bytes)},
    x ∈ sets.foldr hashUnion [] ↔ ∃ s ∈ sets, x ∈ s
  | [] => by simp
  | s :: rest => by
    have ih := @mem_foldr_hashUnion x rest
    simp only [List.foldr_cons, mem_hashUnion, ih]
    simp only [List.mem_cons]
    constructor
    · rintro (h | ⟨t, ht, hx⟩)
      · exact ⟨s, Or.inl rfl, h⟩
      · exact ⟨t, Or.inr ht, hx⟩
    · rintro ⟨t, (rfl | ht), hx⟩
      · exact Or.inl hx
      · exact Or.inr ⟨t, ht, hx⟩

theorem mem_foldl_hashUnion {x : Bytes} : ∀ {sets : List (List Bytes)} {acc : List Bytes},
    x ∈ sets.foldl hashUnion acc ↔ x ∈ acc ∨ ∃ s ∈ sets, x ∈ s
  | [], acc => by simp
  | s :: rest, acc => by
    have ih := @mem_foldl_hashUnion x rest (hashUnion acc s)
    simp only [List.foldl_cons, ih, mem_hashUnion, List.mem_cons]
    constructor
    · rintro ((h | h) | ⟨t, ht, hx⟩)
      · exact Or.inl h
      · exact Or.inr ⟨s, Or.inl rfl, h⟩
      · exact Or.inr ⟨t, Or.inr ht, hx⟩
    · rintro (h | ⟨t, (rfl | ht), hx⟩)
      · exact Or.inl (Or.inl h)
      · exact Or.inl (Or.inr hx)
      · exact Or.inr ⟨t, ht, hx⟩

theorem nodup_foldr_hashUnion : ∀ {sets : List (List Bytes)},
    (∀ s ∈ sets, s.Nodup) → (sets.foldr hashUnion []).Nodup
  | [], _ => List.nodup_nil
  | s :: rest, h => by
    simp only [List.foldr_cons]
    exact nodup_hashUnion (h s (List.mem_cons_self s rest))

theorem nodup_foldl_hashUnion : ∀ {sets : List (List Bytes)} {acc : List Bytes},
    acc.Nodup → (sets.foldl hashUnion acc).Nodup
  | [], _, h => h
  | s :: rest, acc, h => by
    simp only [List.foldl_cons]
    exact nodup_foldl_hashUnion (nodup_hashUnion h)

theorem unique_nodup (input : Bytes) : (Extractor.unique input).Nodup :=
  List.nodup_dedup _

theorem parse_all_blobs_eq_sync (blobs : List Bytes) :
    parse_all_blobs blobs = parse_all_blobs_sync blobs := by
  unfold parse_all_blobs parse_all_blobs_sync
  have h1 : ((blobs.map Extractor.unique).foldr hashUnion []).Nodup :=
    nodup_foldr_hashUnion (fun s hs => by
      rcases List.mem_map.mp hs with ⟨b, _, rfl⟩
      exact unique_nodup b)
  have h2 : ((blobs.map Extractor.unique).foldl hashUnion []).Nodup :=
    nodup_foldl_hashUnion List.nodup_nil
  have hm : ∀ x, x ∈ (blobs.map Extractor.unique).foldr hashUnion [] ↔
      x ∈ (blobs.map Extractor.unique).foldl hashUnion [] := by
    intro x
    rw [mem_foldr_hashUnion, mem_foldl_hashUnion]
    simp
  have hp := (List.perm_ext_iff_of_nodup h1 h2).2 hm
  exact List.eq_of_perm_of_sorted
    ((List.perm_insertionSort _ _).trans (hp.trans (List.perm_insertionSort _ _).symm))
    (List.sorted_insertionSort _ _) (List.sorted_insertionSort _ _)

/-- Merging the per-blob sets in any order gives the same sorted result, so
the nondeterministic combination order of the parallel reduce cannot affect
the output. -/
theorem sorted_union_perm_invariant {sets₁ sets₂ : List (List Bytes)}
    (hp : sets₁.Perm sets₂) :
    List.insertionSort (· ≤ ·) (sets₁.foldl hashUnion []) =
      List.insertionSort (· ≤ ·) (sets₂.foldl hashUnion []) := by
  have h1 := @nodup_foldl_hashUnion sets₁ [] List.nodup_nil
  have h2 := @nodup_foldl_hashUnion sets₂ [] List.nodup_nil
  have hm : ∀ x, x ∈ sets₁.foldl hashUnion [] ↔ x ∈ sets₂.foldl hashUnion [] := by
    intro x
    rw [mem_foldl_hashUnion, mem_foldl_hashUnion]
    constructor
    · rintro (h | ⟨s, hs, hx⟩)
      · cases h
      · exact Or.inr ⟨s, hp.mem_iff.mp hs, hx⟩
    · rintro (h | ⟨s, hs, hx⟩)
      · cases h
      · exact Or.inr ⟨s, hp.mem_iff.mpr hs, hx⟩
  have hperm := (List.perm_ext_iff_of_nodup h1 h2).2 hm
  exact List.eq_of_perm_of_sorted
    ((List.perm_insertionSort _ _).trans (hperm.trans (List.perm_insertionSort _ _).symm))
    (List.sorted_insertionSort _ _) (List.sorted_insertionSort _ _)

theorem mem_parse_all_blobs {x : Bytes} {blobs : List Bytes} :
    x ∈ parse_all_blobs blobs ↔ ∃ blob ∈ blobs, x ∈ Extractor.unique blob := by
  unfold parse_all_blobs
  rw [(List.perm_insertionSort _ _).mem_iff, mem_foldr_hashUnion]
  constructor
  · rintro ⟨s, hs, hx⟩
    rcases List.mem_map.mp hs with ⟨b, hb, rfl⟩
    exact ⟨b, hb, hx⟩
  · rintro ⟨b, hb, hx⟩
    exact ⟨Extractor.unique b, List.mem_map.mpr ⟨b, hb, rfl⟩, hx⟩

theorem mem_unique {x input : Bytes} :
    x ∈ Extractor.unique input ↔
      ∃ r ∈ scanRanges input, x = byteSlice input r.1 r.2 := by
  unfold Extractor.unique
  rw [List.mem_dedup, List.mem_map]
  constructor
  · rintro ⟨r, hr, rfl⟩
    exact ⟨r, hr, rfl⟩
  · rintro ⟨r, hr, rfl⟩
    exact ⟨r, hr, rfl⟩

/-! ## Supporting lemmas: scanner boundary discipline -/

theorem scanStep_cont_start {st : ScanState} {b : Nat} {st2 : ScanState}
    (h : scanStep st b = ScanStep.cont st2) : st2.start = st.start := by
  unfold scanStep at h
  repeat' split at h
  all_goals first
    | (cases h; rfl)
    | cases h

theorem scanStep_stop_ascii {st : ScanState} {b : Nat}
    (h : scanStep st b = ScanStep.stop) : b < 0x80 := by
  unfold scanStep at h
  repeat' split at h
  all_goals try cases h
  all_goals simp_all [not_or]

theorem scanFrom_mem_ok (buf : Bytes) (l : List Nat) :
    ∀ (pos : Nat) (st : Option ScanState),
      pos ≤ buf.length →
      buf.drop pos = l →
      (∀ c, st = some c → c.start < pos ∧ isStartByte (buf.getD c.start 0) = true) →
      ∀ s e, (s, e) ∈ scanFrom l pos st →
        s < e ∧ e ≤ buf.length ∧ isStartByte (buf.getD s 0) = true ∧
          (e = buf.length ∨ buf.getD e 0 < 0x80) := by
  induction l with
  | nil =>
    intro pos st hpos hdrop hst s e hmem
    have hlen : pos = buf.length := by
      have hc := congrArg List.length hdrop
      simp [List.length_drop] at hc
      omega
    cases st with
    | none => simp [scanFrom] at hmem
    | some c =>
      simp only [scanFrom] at hmem
      split at hmem
      · rw [List.mem_singleton, Prod.mk.injEq] at hmem
        obtain ⟨rfl, rfl⟩ := hmem
        obtain ⟨hlt, hsb⟩ := hst c rfl
        exact ⟨hlt, hpos, hsb, Or.inl hlen⟩
      · simp at hmem
  | cons b rest ih =>
    intro pos st hpos hdrop hst s e hmem
    have hposlt : pos < buf.length := by
      by_contra hge
      rw [List.drop_eq_nil_of_le (Nat.le_of_not_lt hge)] at hdrop
      cases hdrop
    have h1 := List.drop_eq_getElem_cons (l := buf) hposlt
    rw [hdrop] at h1
    obtain ⟨hb', hrest⟩ : b = buf[pos] ∧ rest = buf.drop (pos + 1) :=
      ⟨(List.cons.inj h1).1, (List.cons.inj h1).2⟩
    have hb : buf.getD pos 0 = b := by
      rw [List.getD_eq_getElem buf 0 hposlt, hb']
    cases st with
    | none =>
      simp only [scanFrom] at hmem
      split at hmem
      · refine ih (pos + 1) (some (openState pos b)) hposlt hrest.symm ?_ s e hmem
        intro c hc
        obtain rfl := Option.some.inj hc
        refine ⟨Nat.lt_succ_of_le le_rfl, ?_⟩
        show isStartByte (buf.getD (openState pos b).start 0) = true
        have : (openState pos b).start = pos := rfl
        rw [this, hb]
        assumption
      · exact ih (pos + 1) none hposlt hrest.symm (fun c hc => by cases hc) s e hmem
    | some c =>
      simp only [scanFrom] at hmem
      split at hmem
      · rename_i st2 hstep
        refine ih (pos + 1) (some st2) hposlt hrest.symm ?_ s e hmem
        intro c2 hc2
        obtain rfl := Option.some.inj hc2
        obtain ⟨hlt, hsb⟩ := hst c rfl
        rw [scanStep_cont_start hstep]
        exact ⟨Nat.lt_succ_of_lt hlt, hsb⟩
      · rename_i hstep
        rcases List.mem_append.mp hmem with hl | hr
        · obtain ⟨hlt, hsb⟩ := hst c rfl
          have hmem2 : (s, e) = (c.start, pos) := by
            by_cases hok : emitOk c = true
            · rw [if_pos hok, List.mem_singleton] at hl
              exact hl
            · rw [if_neg hok] at hl
              cases hl
          rw [Prod.mk.injEq] at hmem2
          obtain ⟨rfl, rfl⟩ := hmem2
          exact ⟨hlt, Nat.le_of_lt hposlt, hsb, Or.inr (by rw [hb]; exact scanStep_stop_ascii hstep)⟩
        · exact ih (pos + 1) none hposlt hrest.symm (fun c2 hc2 => by cases hc2) s e hr

theorem scanRanges_ok {buf : Bytes} {s e : Nat}
    (h : (s, e) ∈ scanRanges buf) :
    s < e ∧ e ≤ buf.length ∧ isStartByte (buf.getD s 0) = true ∧
      (e = buf.length ∨ buf.getD e 0 < 0x80) :=
  scanFrom_mem_ok buf buf 0 none (Nat.zero_le _) rfl (fun c hc => by cases hc) s e h

theorem startByte_ascii {b : Nat} (h : isStartByte b = true) : b < 0x80 := by
  simp only [isStartByte, isIdentByte, Bool.or_eq_true, decide_eq_true_eq] at h
  omega

/-! ## Supporting lemmas: UTF-8 validity of slices between ASCII boundaries -/

theorem utf8Char_tail_ge {c : List Nat} (h : IsUtf8Char c) :
    ∀ v ∈ c.tail, 0x80 ≤ v := by
  match c with
  | [] => exact absurd h (by simp [IsUtf8Char])
  | [b] => intro v hv; simp at hv
  | [b, c1] =>
    intro v hv
    simp only [IsUtf8Char, isContByte] at h
    simp only [List.tail_cons, List.mem_singleton] at hv
    omega
  | [b, c1, c2] =>
    intro v hv
    simp only [IsUtf8Char, isContByte] at h
    simp only [List.tail_cons, List.mem_cons, List.mem_singleton, List.not_mem_nil] at hv
    rcases hv with rfl | rfl | hv
    · omega
    · omega
    · cases hv
  | [b, c1, c2, c3] =>
    intro v hv
    simp only [IsUtf8Char, isContByte] at h
    simp only [List.tail_cons, List.mem_cons, List.mem_singleton, List.not_mem_nil] at hv
    rcases hv with rfl | rfl | rfl | hv
    · omega
    · omega
    · omega
    · cases hv
  | b :: c1 :: c2 :: c3 :: c4 :: rest =>
    exact absurd h (by simp [IsUtf8Char])

theorem utf8_split_aux : ∀ (cs : List (List Nat)) (a b : Bytes),
    (∀ c ∈ cs, IsUtf8Char c) → cs.flatten = a ++ b →
    (b = [] ∨ ∃ v vt, b = v :: vt ∧ v < 0x80) → Utf8Valid a ∧ Utf8Valid b := by
  intro cs
  induction cs with
  | nil =>
    intro a b _ hj _
    rw [List.flatten_nil] at hj
    obtain ⟨rfl, rfl⟩ := List.append_eq_nil.mp hj.symm
    exact ⟨⟨[], by simp⟩, ⟨[], by simp⟩⟩
  | cons c cs ih =>
    intro a b hchars hj hb
    rw [List.flatten_cons] at hj
    rcases List.append_eq_append_iff.mp hj with ⟨w, hw1, hw2⟩ | ⟨w, hw1, hw2⟩
    · -- a = c ++ w, cs.flatten = w ++ b
      obtain ⟨hva, hvb⟩ := ih w b (fun d hd => hchars d (List.mem_cons_of_mem c hd)) hw2 hb
      refine ⟨?_, hvb⟩
      obtain ⟨ds, hds, rfl⟩ := hva
      exact ⟨c :: ds, fun d hd => by
        rcases List.mem_cons.mp hd with h1 | hd2
        · rw [h1]
          exact hchars c (List.mem_cons_self c cs)
        · exact hds d hd2, by rw [hw1, List.flatten_cons]⟩
    · -- c = a ++ w, b = w ++ cs.flatten
      cases w with
      | nil =>
        rw [List.append_nil] at hw1
        rw [List.nil_append] at hw2
        refine ⟨⟨[a], ?_, by simp⟩,
          ⟨cs, fun d hd => hchars d (List.mem_cons_of_mem c hd), hw2⟩⟩
        intro d hd
        rw [List.mem_singleton.mp hd, ← hw1]
        exact hchars c (List.mem_cons_self c cs)
      | cons v vt =>
        cases a with
        | nil =>
          rw [List.nil_append] at hw1
          refine ⟨⟨[], by simp⟩, ⟨c :: cs, hchars, ?_⟩⟩
          rw [List.flatten_cons, hw1]
          exact hw2
        | cons a0 arest =>
          exfalso
          have hvtail : v ∈ c.tail := by
            rw [hw1]
            simp [List.cons_append, List.tail_cons]
          have hge := utf8Char_tail_ge (hchars c (List.mem_cons_self c cs)) v hvtail
          rcases hb with rfl | ⟨v2, vt2, hbeq, hv2⟩
          · cases hw2
          · rw [hw2, List.cons_append] at hbeq
            obtain rfl := (List.cons.inj hbeq.symm).1
            omega

theorem utf8Valid_append_split {a b : Bytes} (h : Utf8Valid (a ++ b))
    (hb : b = [] ∨ ∃ v vt, b = v :: vt ∧ v < 0x80) : Utf8Valid a ∧ Utf8Valid b := by
  obtain ⟨cs, hchars, hjoin⟩ := h
  exact utf8_split_aux cs a b hchars hjoin.symm hb

theorem utf8Valid_slice {buf : Bytes} (h : Utf8Valid buf) {s e : Nat}
    (hse : s < e) (he : e ≤ buf.length)
    (hs : buf.getD s 0 < 0x80)
    (hend : e = buf.length ∨ buf.getD e 0 < 0x80) :
    Utf8Valid (byteSlice buf s e) := by
  have hslt : s < buf.length := lt_of_lt_of_le hse he
  have h1 : Utf8Valid (buf.drop s) := by
    have hd : buf.drop s = buf[s] :: buf.drop (s + 1) := List.drop_eq_getElem_cons hslt
    refine (utf8Valid_append_split (a := buf.take s) (b := buf.drop s)
      (by rw [List.take_append_drop]; exact h)
      (Or.inr ⟨buf[s], buf.drop (s + 1), hd, ?_⟩)).2
    rwa [List.getD_eq_getElem buf 0 hslt] at hs
  have h2 : buf.drop s = byteSlice buf s e ++ buf.drop e := by
    unfold byteSlice
    have h3 : (buf.drop s).drop (e - s) = buf.drop e := by
      rw [List.drop_drop]
      congr 1
      omega
    rw [← h3, List.take_append_drop]
  have hcond : buf.drop e = [] ∨ ∃ v vt, buf.drop e = v :: vt ∧ v < 0x80 := by
    by_cases helt : e < buf.length
    · right
      refine ⟨buf[e], buf.drop (e + 1), List.drop_eq_getElem_cons helt, ?_⟩
      rcases hend with heq | hlt2
      · omega
      · rwa [List.getD_eq_getElem buf 0 helt] at hlt2
    · left
      exact List.drop_eq_nil_of_le (Nat.le_of_not_lt helt)
  exact (utf8Valid_append_split (h2 ▸ h1) hcond).1

/-- Every candidate slice the scanner reports from a valid-UTF-8 buffer is
itself valid UTF-8: boundaries happen only at ASCII bytes. -/
theorem unique_utf8Valid {input : Bytes} (h : Utf8Valid input) :
    ∀ x ∈ Extractor.unique input, Utf8Valid x := by
  intro x hx
  rcases mem_unique.mp hx with ⟨⟨s, e⟩, hr, rfl⟩
  obtain ⟨hse, he, hsb, hend⟩ := scanRanges_ok hr
  exact utf8Valid_slice h hse he (startByte_ascii hsb) hend

/-! ## Supporting lemmas: the top-level pipelines -/

theorem parse_funs_eq : parse_all_blobs = parse_all_blobs_sync :=
  funext parse_all_blobs_eq_sync

theorem read_funs_eq : read_all_files = read_all_files_sync :=
  rfl

theorem parse_all_blobs_sync_sorted (blobs : List Bytes) :
    List.Sorted (· ≤ ·) (parse_all_blobs_sync blobs) :=
  List.sorted_insertionSort _ _

theorem parse_all_blobs_sync_nodup (blobs : List Bytes) :
    (parse_all_blobs_sync blobs).Nodup :=
  ((List.perm_insertionSort _ _).nodup_iff).mpr (nodup_foldl_hashUnion List.nodup_nil)

theorem ioFromU8_eq_none {opts : Nat} (h : opts &&& 3 ≠ 1 ∧ opts &&& 3 ≠ 2) :
    ioFromU8 opts = none := by
  unfold ioFromU8
  split
  · rename_i heq
    exact absurd heq h.1
  · rename_i heq
    exact absurd heq h.2
  · rfl

theorem parsingFromU8_eq_none {opts : Nat} (h : opts &&& 12 ≠ 4 ∧ opts &&& 12 ≠ 8) :
    parsingFromU8 opts = none := by
  unfold parsingFromU8
  split
  · rename_i heq
    exact absurd heq h.1
  · rename_i heq
    exact absurd heq h.2
  · rfl

/-- Under a valid strategy byte the observable value of
`parse_candidate_strings` is the canonical sequential pipeline, whichever of
the four arms runs. -/
theorem pcs_value_valid {opts : Nat} {i : Io} {p : Parsing}
    (hio : ioFromU8 opts = some i) (hp : parsingFromU8 opts = some p)
    (dbg : Option String) (fs : String → Except IoError Bytes)
    (input : List ChangedContent) :
    (parse_candidate_strings dbg fs input opts).value =
      (read_all_files_sync fs input).map parse_all_blobs_sync := by
  cases i <;> cases p <;>
    simp only [parse_candidate_strings, hio, hp] <;>
    first
      | rfl
      | (rw [parse_funs_eq, read_funs_eq])
      | (rw [parse_funs_eq])

theorem from_files_value (dbg : Option String)
    (fs : String → Except IoError Bytes) (input : List ChangedContent) :
    (parse_candidate_strings_from_files dbg fs input).value =
      (read_all_files_sync fs input).map parse_all_blobs_sync := by
  simp only [parse_candidate_strings_from_files]
  rw [parse_funs_eq, read_funs_eq]

/-! ## The claims -/

/-- C1: for every DEBUG setting, file system and input list, the four valid
strategy bytes — 0b0101 (IO Sequential, Parsing Sequential), 0b0110 (IO
Parallel, Parsing Sequential), 0b1001 (IO Sequential, Parsing Parallel) and
0b1010 (IO Parallel, Parsing Parallel) — make `parse_candidate_strings`
produce identical results: the same final sorted sequence of strings (and the
same panic when a read fails). -/
theorem claim_C1_strategy_independence
    (dbg : Option String) (fs : String → Except IoError Bytes)
    (input : List ChangedContent) :
    parse_candidate_strings dbg fs input 0b0101 = parse_candidate_strings dbg fs input 0b0110 ∧
    parse_candidate_strings dbg fs input 0b0110 = parse_candidate_strings dbg fs input 0b1001 ∧
    parse_candidate_strings dbg fs input 0b1001 = parse_candidate_strings dbg fs input 0b1010 := by
  refine ⟨?_, ?_, ?_⟩ <;>
    (unfold parse_candidate_strings; rw [parse_funs_eq, read_funs_eq]; rfl)

/-- C2: whenever `parse_candidate_strings` or
`parse_candidate_strings_from_files` returns a value (rather than panicking),
that value is duplicate-free and sorted ascending by byte value. -/
theorem claim_C2_output_sorted_nodup
    (dbg : Option String) (fs : String → Except IoError Bytes)
    (input : List ChangedContent) (opts : Nat) (r : List Bytes) :
    ((parse_candidate_strings dbg fs input opts).value = Except.ok r →
      List.Sorted (· ≤ ·) r ∧ r.Nodup) ∧
    ((parse_candidate_strings_from_files dbg fs input).value = Except.ok r →
      List.Sorted (· ≤ ·) r ∧ r.Nodup) := by
  constructor
  · intro h
    cases hio : ioFromU8 opts with
    | none =>
      have hv : (parse_candidate_strings dbg fs input opts).value =
          Except.error PanicErr.unknownIoStrategy := by
        simp [parse_candidate_strings, hio]
      rw [hv] at h
      cases h
    | some i =>
      cases hp : parsingFromU8 opts with
      | none =>
        have hv : (parse_candidate_strings dbg fs input opts).value =
            Except.error PanicErr.unknownParsingStrategy := by
          simp [parse_candidate_strings, hio, hp]
        rw [hv] at h
        cases h
      | some p =>
        rw [pcs_value_valid hio hp dbg fs input] at h
        cases hread : read_all_files_sync fs input with
        | error e =>
          rw [hread] at h
          cases h
        | ok blobs =>
          rw [hread] at h
          simp only [Except.map] at h
          obtain rfl := (Except.ok.inj h).symm
          exact ⟨parse_all_blobs_sync_sorted blobs, parse_all_blobs_sync_nodup blobs⟩
  · intro h
    rw [from_files_value] at h
    cases hread : read_all_files_sync fs input with
    | error e =>
      rw [hread] at h
      cases h
    | ok blobs =>
      rw [hread] at h
      simp only [Except.map] at h
      obtain rfl := (Except.ok.inj h).symm
      exact ⟨parse_all_blobs_sync_sorted blobs, parse_all_blobs_sync_nodup blobs⟩

/-- C2 witness: the claim evaluated at one inline buffer `"a b"`. -/
theorem claim_C2_witness :
    List.Sorted (· ≤ ·) ([[97], [98]] : List Bytes) ∧ ([[97], [98]] : List Bytes).Nodup :=
  (claim_C2_output_sorted_nodup none fsAllFail
      [{ file := none, content := some [97, 32, 98], extension := "html" }] 5 [[97], [98]]).1
    (by decide)

/-- C3: every byte range the scanner reports starts at an ASCII start byte
and ends either at the end of the buffer or just before an ASCII terminator
byte, so for valid-UTF-8 input every string produced by `parse_all_blobs` and
`parse_all_blobs_sync` (where the Rust code calls
`String::from_utf8_unchecked`) is valid UTF-8. -/
theorem claim_C3_ascii_boundaries :
    (∀ (buf : Bytes) (s e : Nat), (s, e) ∈ scanRanges buf →
      isStartByte (buf.getD s 0) = true ∧ (e = buf.length ∨ buf.getD e 0 < 0x80)) ∧
    (∀ blobs : List Bytes, (∀ b ∈ blobs, Utf8Valid b) →
      (∀ x ∈ parse_all_blobs blobs, Utf8Valid x) ∧
      (∀ x ∈ parse_all_blobs_sync blobs, Utf8Valid x)) := by
  constructor
  · intro buf s e h
    obtain ⟨_, _, h3, h4⟩ := scanRanges_ok h
    exact ⟨h3, h4⟩
  · intro blobs hv
    constructor
    · intro x hx
      rcases mem_parse_all_blobs.mp hx with ⟨blob, hb, hxb⟩
      exact unique_utf8Valid (hv blob hb) x hxb
    · intro x hx
      rw [← parse_all_blobs_eq_sync] at hx
      rcases mem_parse_all_blobs.mp hx with ⟨blob, hb, hxb⟩
      exact unique_utf8Valid (hv blob hb) x hxb

/-- C3 witness: the claim evaluated on the single blob `"bg"`, whose one
candidate is the whole buffer. -/
theorem claim_C3_witness : Utf8Valid [98, 103] :=
  (claim_C3_ascii_boundaries.2 [[98, 103]] (fun b hb => by
    rw [List.mem_singleton.mp hb]
    exact ⟨[[98], [103]], fun c hc => by
      rcases List.mem_cons.mp hc with h1 | h2
      · rw [h1]
        show (98 : Nat) < 0x80
        decide
      · rw [List.mem_singleton.mp h2]
        show (103 : Nat) < 0x80
        decide, rfl⟩)).1 [98, 103] (by decide)

/-- C4: a strategy byte whose IO field (bits 0-1) is neither 0b01 nor 0b10,
or whose Parsing field (bits 2-3) is neither 0b0100 nor 0b1000, makes
`parse_candidate_strings` fail with the corresponding configuration panic,
and the result does not depend on the file system — no file I/O can have
influenced it. -/
theorem claim_C4_invalid_strategy_rejected
    (opts : Nat)
    (h : (opts &&& 3 ≠ 1 ∧ opts &&& 3 ≠ 2) ∨ (opts &&& 12 ≠ 4 ∧ opts &&& 12 ≠ 8)) :
    ∀ (dbg : Option String) (fs fs2 : String → Except IoError Bytes)
      (input : List ChangedContent),
      ((parse_candidate_strings dbg fs input opts).value =
          Except.error PanicErr.unknownIoStrategy ∨
        (parse_candidate_strings dbg fs input opts).value =
          Except.error PanicErr.unknownParsingStrategy) ∧
      (parse_candidate_strings dbg fs input opts).value =
        (parse_candidate_strings dbg fs2 input opts).value := by
  intro dbg fs fs2 input
  rcases h with h | h
  · have hio := ioFromU8_eq_none h
    constructor
    · left
      simp [parse_candidate_strings, hio]
    · simp [parse_candidate_strings, hio]
  · have hpar := parsingFromU8_eq_none h
    cases hio : ioFromU8 opts with
    | none =>
      constructor
      · left
        simp [parse_candidate_strings, hio]
      · simp [parse_candidate_strings, hio]
    | some i =>
      constructor
      · right
        simp [parse_candidate_strings, hio, hpar]
      · simp [parse_candidate_strings, hio, hpar]

/-- C4 witness: the claim evaluated at strategy byte 0, an all-failing file
system and an always-succeeding one. -/
theorem claim_C4_witness :
    ((parse_candidate_strings none fsAllFail [] 0).value =
        Except.error PanicErr.unknownIoStrategy ∨
      (parse_candidate_strings none fsAllFail [] 0).value =
        Except.error PanicErr.unknownParsingStrategy) ∧
    (parse_candidate_strings none fsAllFail [] 0).value =
      (parse_candidate_strings none (fun _ => Except.ok [97]) [] 0).value :=
  claim_C4_invalid_strategy_rejected 0 (by decide) none fsAllFail (fun _ => Except.ok [97]) []

/-- C5: a `ChangedContent` whose file cannot be read aborts the whole call
(fail-fast, no partial results), but the failure is the `unwrap` panic
carrying only the `io::Error` — the same error value for two different
offending paths, so the error does not name the offending path, contrary to
the claim. -/
theorem claim_C5_read_failure_panics_without_path :
    (parse_candidate_strings none fsAllFail
        [{ file := some "missing.txt", content := none, extension := "html" }] 5).value =
      Except.error (PanicErr.readPanic { kind := "NotFound" }) ∧
    (parse_candidate_strings none fsAllFail
        [{ file := some "other.txt", content := none, extension := "html" }] 5).value =
      Except.error (PanicErr.readPanic { kind := "NotFound" }) ∧
    (parse_candidate_strings_from_files none fsAllFail
        [{ file := some "missing.txt", content := none, extension := "html" }]).value =
      Except.error (PanicErr.readPanic { kind := "NotFound" }) :=
  ⟨by decide, by decide, by decide⟩

/-- C6: an empty input list yields `Ok []`, and a `ChangedContent` with
neither field populated resolves to the empty buffer and contributes zero
candidates without any error. -/
theorem claim_C6_empty_inputs
    (dbg : Option String) (fs : String → Except IoError Bytes) (ext : String)
    (opts : Nat) {i : Io} {p : Parsing}
    (hio : ioFromU8 opts = some i) (hp : parsingFromU8 opts = some p) :
    (parse_candidate_strings dbg fs [] opts).value = Except.ok [] ∧
    (parse_candidate_strings_from_files dbg fs []).value = Except.ok [] ∧
    resolveContent fs { file := none, content := none, extension := ext } = Except.ok [] ∧
    (parse_candidate_strings dbg fs
        [{ file := none, content := none, extension := ext }] opts).value = Except.ok [] := by
  refine ⟨?_, ?_, rfl, ?_⟩
  · rw [pcs_value_valid hio hp]
    rfl
  · rw [from_files_value]
    rfl
  · rw [pcs_value_valid hio hp]
    rfl

/-- C6 witness: the claim evaluated with strategy byte 0b0101 and an
all-failing file system. -/
theorem claim_C6_witness :
    (parse_candidate_strings none fsAllFail [] 5).value = Except.ok [] ∧
    (parse_candidate_strings_from_files none fsAllFail []).value = Except.ok [] ∧
    resolveContent fsAllFail { file := none, content := none, extension := "html" } =
      Except.ok [] ∧
    (parse_candidate_strings none fsAllFail
        [{ file := none, content := none, extension := "html" }] 5).value = Except.ok [] :=
  claim_C6_empty_inputs none fsAllFail "html" 5 (i := Io.sequential)
    (p := Parsing.sequential) rfl rfl

/-- C7: the inline content `bg-[red` (unbalanced bracket) yields no
candidate, while `bg-[red]` yields exactly the one candidate `bg-[red]`,
both at the scanner and through the whole pipeline, with no error. -/
theorem claim_C7_unbalanced_bracket :
    Extractor.unique [98, 103, 45, 91, 114, 101, 100] = [] ∧
    Extractor.unique [98, 103, 45, 91, 114, 101, 100, 93] =
      [[98, 103, 45, 91, 114, 101, 100, 93]] ∧
    (parse_candidate_strings none fsAllFail
        [{ file := none, content := some [98, 103, 45, 91, 114, 101, 100],
           extension := "html" }] 5).value = Except.ok [] ∧
    (parse_candidate_strings none fsAllFail
        [{ file := none, content := some [98, 103, 45, 91, 114, 101, 100, 93],
           extension := "html" }] 5).value =
      Except.ok [[98, 103, 45, 91, 114, 101, 100, 93]] :=
  ⟨by decide, by decide, by decide, by decide⟩

/-- C8: the DEBUG environment value never affects the returned value of
either entry point; it only switches the tracing side channel. -/
theorem claim_C8_debug_no_effect
    (dbg1 dbg2 : Option String) (fs : String → Except IoError Bytes)
    (input : List ChangedContent) (opts : Nat) :
    (parse_candidate_strings dbg1 fs input opts).value =
      (parse_candidate_strings dbg2 fs input opts).value ∧
    (parse_candidate_strings_from_files dbg1 fs input).value =
      (parse_candidate_strings_from_files dbg2 fs input).value :=
  ⟨rfl, rfl⟩

/-- C9: a `ChangedContent` with both fields populated hits the default match
arm: it resolves to the empty buffer without consulting the file system
(`fs` is arbitrary, including one where every read fails), exactly like an
item with neither field, and contributes zero candidates with no error. -/
theorem claim_C9_both_fields_resolve_empty
    (fs : String → Except IoError Bytes) (path : String) (content : Bytes) (ext : String) :
    resolveContent fs { file := some path, content := some content, extension := ext } =
      Except.ok [] ∧
    resolveContent fs { file := some path, content := some content, extension := ext } =
      resolveContent fs { file := none, content := none, extension := ext } ∧
    ∀ (dbg : Option String) (opts : Nat) (i : Io) (p : Parsing),
      ioFromU8 opts = some i → parsingFromU8 opts = some p →
      (parse_candidate_strings dbg fs
          [{ file := some path, content := some content, extension := ext }] opts).value =
        Except.ok [] := by
  refine ⟨rfl, rfl, ?_⟩
  intro dbg opts i p hio hp
  rw [pcs_value_valid hio hp]
  rfl

/-- C9 witness: the claim evaluated at a concrete item under the all-failing
file system. -/
theorem claim_C9_witness :
    (parse_candidate_strings none fsAllFail
        [{ file := some "x.html", content := some [97], extension := "html" }] 5).value =
      Except.ok [] :=
  (claim_C9_both_fields_resolve_empty fsAllFail "x.html" [97] "html").2.2 none 5
    Io.sequential Parsing.sequential rfl rfl

/-- C10: bits 4-7 of the strategy byte are ignored: each axis is decoded
from its masked field only, so any strategy byte behaves exactly like its
low nibble. -/
theorem claim_C10_high_bits_ignored
    (dbg : Option String) (fs : String → Except IoError Bytes)
    (input : List ChangedContent) (s : Nat) :
    parse_candidate_strings dbg fs input s = parse_candidate_strings dbg fs input (s &&& 15) := by
  have h3 : s &&& 15 &&& 3 = s &&& 3 := by
    rw [Nat.land_assoc]
    rfl
  have h12 : s &&& 15 &&& 12 = s &&& 12 := by
    rw [Nat.land_assoc]
    rfl
  unfold parse_candidate_strings ioFromU8 parsingFromU8
  rw [h3, h12]
